import Mathlib

/-!
Shallow embedding of `bevy_line_boil` (`src/lib.rs`).

Modelling choices:
* `f32` values are modelled as `ℚ`: the library performs no floating-point
  arithmetic on them — every value is either a literal, copied, or assigned —
  so exact rationals are a faithful model of the stored bit patterns.
* The ECS world is a `World` structure: entities are indices into a node list,
  each node holding the components this plugin reads or writes
  (`LineBoil` marker, `LineBoilApplied` tag, the
  `MeshMaterial3d<StandardMaterial>` handle, the
  `MeshMaterial3d<ExtendedMaterial<StandardMaterial, LineBoilMaterial>>`
  handle, and `Children`).
* `StandardMaterial` is an opaque base-surface snapshot (modelled as `ℕ`);
  the code only ever clones it verbatim into the composed material.
* Bevy `Commands` are deferred: a system's structural mutations are buffered
  and applied at the sync point after the system runs, while `ResMut` asset
  mutations are immediate.  The embedding keeps that split: `visit_entity`
  appends to the material asset list immediately and buffers a `Cmd`, and
  `apply_commands` replays the buffer at the end of the system.
* `Assets::add` hands out fresh handles; the asset store is a list and a
  handle is an index, so `add` appends and returns the old length.
* Query iteration order is unspecified in Bevy; the embedding iterates in
  entity-index order.
-/

/-- `LineBoilSettings` (src/lib.rs 86-109): the effect parameters uniform. -/
structure LineBoilSettings where
  intensity : ℚ
  frame_rate : ℚ
  noise_frequency : ℚ
  seed : ℚ
  time : ℚ
  deriving DecidableEq

/-- `Default for LineBoilSettings` (src/lib.rs 111-121). -/
def LineBoilSettings.default : LineBoilSettings :=
  { intensity := 0.02
    frame_rate := 6.0
    noise_frequency := 8.0
    seed := 0.0
    time := 0.0 }

/-- Opaque base-surface-material snapshot; the plugin only clones it. -/
abbrev StandardMaterial := ℕ

/-- `LineBoilMaterial` (src/lib.rs 126-130): the material extension. -/
structure LineBoilMaterial where
  settings : LineBoilSettings
  deriving DecidableEq

/-- `ExtendedMaterial<StandardMaterial, LineBoilMaterial>`: base snapshot
plus extension, as composed at src/lib.rs 287-292. -/
structure ExtendedMaterial where
  base : StandardMaterial
  extension : LineBoilMaterial
  deriving DecidableEq

/-- `LineBoil` marker component (src/lib.rs 163-166). -/
structure LineBoil where
  settings : LineBoilSettings
  deriving DecidableEq

/-- `LineBoil::new` (src/lib.rs 170-172): default settings. -/
def LineBoil.new : LineBoil :=
  { settings := LineBoilSettings.default }

/-- `LineBoil::with_intensity` (src/lib.rs 175-178). -/
def LineBoil.with_intensity (lb : LineBoil) (intensity : ℚ) : LineBoil :=
  { lb with settings := { lb.settings with intensity := intensity } }

/-- `LineBoil::with_frame_rate` (src/lib.rs 181-184). -/
def LineBoil.with_frame_rate (lb : LineBoil) (fps : ℚ) : LineBoil :=
  { lb with settings := { lb.settings with frame_rate := fps } }

/-- `LineBoil::with_noise_frequency` (src/lib.rs 187-190). -/
def LineBoil.with_noise_frequency (lb : LineBoil) (freq : ℚ) : LineBoil :=
  { lb with settings := { lb.settings with noise_frequency := freq } }

/-- `LineBoil::with_seed` (src/lib.rs 193-196). -/
def LineBoil.with_seed (lb : LineBoil) (seed : ℚ) : LineBoil :=
  { lb with settings := { lb.settings with seed := seed } }

/-- `LineBoil::aggressive` (src/lib.rs 201-211). -/
def LineBoil.aggressive : LineBoil :=
  { settings :=
      { intensity := 0.04
        frame_rate := 4.0
        noise_frequency := 12.0
        seed := 0.0
        time := 0.0 } }

/-- `LineBoil::subtle` (src/lib.rs 216-226). -/
def LineBoil.subtle : LineBoil :=
  { settings :=
      { intensity := 0.008
        frame_rate := 8.0
        noise_frequency := 6.0
        seed := 0.0
        time := 0.0 } }

/-- One scene-graph node (entity) with the components this plugin touches.
`applied` is the `LineBoilApplied` tag (src/lib.rs 230-231). -/
structure Node where
  lineBoil : Option LineBoil
  applied : Bool
  stdMat : Option ℕ
  boilMat : Option ℕ
  children : List ℕ
  deriving DecidableEq

/-- The ECS world: nodes indexed by entity id, plus the two asset stores
(`Assets<StandardMaterial>` as an association list handle ↦ material, and
`Assets<ExtendedMaterial<..>>` as a list whose indices are handles). -/
structure World where
  nodes : List Node
  standard_materials : List (ℕ × StandardMaterial)
  line_boil_materials : List ExtendedMaterial
  deriving DecidableEq

/-- `Assets::<StandardMaterial>::get` — resolve a handle; `none` models an
asset that is not (yet) loaded. -/
def standard_materials_get (assets : List (ℕ × StandardMaterial)) (h : ℕ) :
    Option StandardMaterial :=
  (assets.find? (fun p => p.1 = h)).map Prod.snd

/-- `mesh_query.get(entity)` (src/lib.rs 252-255, 285): succeeds iff the
entity exists, carries a `MeshMaterial3d<StandardMaterial>` handle, and does
not carry `LineBoilApplied`; yields the handle. -/
def mesh_query_get (w : World) (e : ℕ) : Option ℕ :=
  match w.nodes[e]? with
  | some n => if n.applied then none else n.stdMat
  | none => none

/-- `children_query.get(entity)` (src/lib.rs 304): the node's children, or
nothing to iterate when the entity has no `Children`. -/
def children_get (w : World) (e : ℕ) : List ℕ :=
  match w.nodes[e]? with
  | some n => n.children
  | none => []

/-- A deferred `Commands` operation.  `replaceMaterial e h` is the chained
`remove::<MeshMaterial3d<StandardMaterial>>().insert(MeshMaterial3d(h))
.insert(LineBoilApplied)` of src/lib.rs 295-299; `removeStdMaterial e` is the
`remove::<MeshMaterial3d<StandardMaterial>>()` of src/lib.rs 239-243. -/
inductive Cmd where
  | replaceMaterial (e : ℕ) (newHandle : ℕ)
  | removeStdMaterial (e : ℕ)
  deriving DecidableEq

/-- Replay one deferred command against the node list. -/
def apply_cmd (nodes : List Node) : Cmd → List Node
  | Cmd.replaceMaterial e h =>
    match nodes[e]? with
    | some n =>
      nodes.set e { n with stdMat := none, boilMat := some h, applied := true }
    | none => nodes
  | Cmd.removeStdMaterial e =>
    match nodes[e]? with
    | some n => nodes.set e { n with stdMat := none }
    | none => nodes

/-- Replay a command buffer in order (the sync point after a system). -/
def apply_commands (nodes : List Node) (cmds : List Cmd) : List Node :=
  cmds.foldl apply_cmd nodes

/-- State threaded through one traversal pass: the `ResMut` line-boil asset
store (mutated immediately) and the buffered `Commands`. -/
structure PassState where
  line_boil_materials : List ExtendedMaterial
  commands : List Cmd
  deriving DecidableEq

/-- Body of `traverse_and_replace_materials` run at one entity
(src/lib.rs 284-301): if the snapshot's mesh query and the standard-material
resolution both succeed, compose the extended material from the snapshot and
the marker's settings, add it to the asset store, and buffer the
replace-and-tag command; otherwise leave the state untouched. -/
def visit_entity (w : World) (line_boil : LineBoil) (entity : ℕ)
    (st : PassState) : PassState :=
  match mesh_query_get w entity with
  | some mat_handle =>
    match standard_materials_get w.standard_materials mat_handle with
    | some std_mat =>
      let extended : ExtendedMaterial :=
        { base := std_mat
          extension := { settings := line_boil.settings } }
      let new_handle := st.line_boil_materials.length
      { line_boil_materials := st.line_boil_materials ++ [extended]
        commands := st.commands ++ [Cmd.replaceMaterial entity new_handle] }
    | none => st
  | none => st

/-- `traverse_and_replace_materials` (src/lib.rs 272-317): visit the entity,
then recurse into its children with the same `line_boil` parameters.  All
queries read the snapshot world `w` fixed at system start (commands are
deferred).  `fuel` bounds the recursion depth; the Rust recursion terminates
because Bevy hierarchies are acyclic, so every run is reproduced by a large
enough fuel. -/
def traverse_and_replace_materials (w : World) (line_boil : LineBoil) :
    ℕ → ℕ → PassState → PassState
  | 0, _, st => st
  | fuel + 1, entity, st =>
    let st1 := visit_entity w line_boil entity st
    (children_get w entity).foldl
      (fun acc child => traverse_and_replace_materials w line_boil fuel child acc)
      st1

/-- `root_query.iter()` (src/lib.rs 250, 259): every entity carrying the
`LineBoil` marker, paired with that marker. -/
def marked_roots (w : World) : List (ℕ × LineBoil) :=
  (List.range w.nodes.length).filterMap (fun e =>
    match w.nodes[e]? with
    | some n => n.lineBoil.map (fun lb => (e, lb))
    | none => none)

/-- The loop body of `apply_line_boil_to_marked_entities`
(src/lib.rs 259-269): run the traversal from every marked root in turn,
threading the asset store and the command buffer. -/
def pass_result (fuel : ℕ) (w : World) : PassState :=
  (marked_roots w).foldl
    (fun st rl => traverse_and_replace_materials w rl.2 fuel rl.1 st)
    { line_boil_materials := w.line_boil_materials, commands := [] }

/-- `apply_line_boil_to_marked_entities` (src/lib.rs 248-270): traverse from
every marked root against the snapshot world, then apply the buffered
commands at the sync point. -/
def apply_line_boil_to_marked_entities (fuel : ℕ) (w : World) : World :=
  { w with
    nodes := apply_commands w.nodes (pass_result fuel w).commands
    line_boil_materials := (pass_result fuel w).line_boil_materials }

/-- The query of `cleanup_old_materials` (src/lib.rs 237): every entity
carrying both `LineBoilApplied` and a `MeshMaterial3d<StandardMaterial>`,
each yielding its buffered removal command. -/
def cleanup_query (w : World) : List Cmd :=
  (List.range w.nodes.length).filterMap (fun e =>
    match w.nodes[e]? with
    | some n =>
      if n.applied && n.stdMat.isSome then some (Cmd.removeStdMaterial e)
      else none
    | none => none)

/-- `cleanup_old_materials` (src/lib.rs 235-244): buffer a removal of the
standard-material handle for every queried entity, then apply the buffer. -/
def cleanup_old_materials (w : World) : World :=
  { w with nodes := apply_commands w.nodes (cleanup_query w) }

/-- `update_line_boil_time` (src/lib.rs 75-83): set the `time` field of every
live line-boil material to the current elapsed-time sample. -/
def update_line_boil_time (current_time : ℚ) (w : World) : World :=
  { w with
    line_boil_materials :=
      w.line_boil_materials.map (fun m =>
        { m with
          extension :=
            { m.extension with
              settings := { m.extension.settings with time := current_time } } }) }

/-- One `Update` tick in the order fixed by `LineBoilPlugin::build`
(src/lib.rs 63-70): traversal, then cleanup strictly after it, then the time
updater (which touches disjoint data). -/
def tick (fuel : ℕ) (current_time : ℚ) (w : World) : World :=
  update_line_boil_time current_time
    (cleanup_old_materials (apply_line_boil_to_marked_entities fuel w))

/-- The preorder list of entities visited by
`traverse_and_replace_materials` starting at `e` with the given fuel. -/
def visited_entities (w : World) : ℕ → ℕ → List ℕ
  | 0, _ => []
  | fuel + 1, e => e :: (children_get w e).flatMap (visited_entities w fuel)

/-- The entity a deferred command mutates. -/
def Cmd.target : Cmd → ℕ
  | Cmd.replaceMaterial e _ => e
  | Cmd.removeStdMaterial e => e

/-- `st'` extends `st`: the pass only ever appends to the asset store and
to the command buffer. -/
def grows_to (st st' : PassState) : Prop :=
  ∃ ms cs,
    st' = { line_boil_materials := st.line_boil_materials ++ ms
            commands := st.commands ++ cs }

/-- The visit body at `e` is a no-op: either the mesh query fails (no
standard-material reference or already tagged) or the reference does not
resolve. -/
def visit_blocked (w : World) (e : ℕ) : Prop :=
  ∀ hdl : ℕ, mesh_query_get w e = some hdl →
    standard_materials_get w.standard_materials hdl = none

/-- Soundness invariant of a pass state over snapshot `w`: every buffered
replace command records a successful mesh query and asset resolution, and
its fresh handle points in the store at the composed material built from the
resolved snapshot and the settings of some marker satisfying `S`. -/
def pass_inv (w : World) (S : LineBoil → Prop) (st : PassState) : Prop :=
  ∀ x k : ℕ, Cmd.replaceMaterial x k ∈ st.commands →
    ∃ (hdl : ℕ) (m : StandardMaterial) (lb : LineBoil), S lb ∧
      mesh_query_get w x = some hdl ∧
      standard_materials_get w.standard_materials hdl = some m ∧
      st.line_boil_materials[k]?
        = some { base := m, extension := { settings := lb.settings } }

/-- A node in its post-conversion shape: tagged, no standard-material
reference, and pointing at a composed material whose handle satisfies `P`. -/
def good_node (P : ℕ → Prop) (n : Node) : Prop :=
  n.applied = true ∧ n.stdMat = none ∧ ∃ k, n.boilMat = some k ∧ P k

/-- Every buffered command of the state is a replace command (the traversal
pass never buffers removals; those belong to cleanup). -/
def all_replace (st : PassState) : Prop :=
  ∀ c ∈ st.commands, ∃ x k, c = Cmd.replaceMaterial x k

/-- A concrete scene: a marked root `0` with children `1` (resolvable
material, handle `5`), `2` (unresolvable material, handle `9`), and
grandchild `3` (resolvable, handle `5`); only handle `5` is loaded. -/
def exampleWorld : World :=
  { nodes :=
      [ { lineBoil := some LineBoil.aggressive, applied := false,
          stdMat := none, boilMat := none, children := [1, 2] }
      , { lineBoil := none, applied := false, stdMat := some 5,
          boilMat := none, children := [] }
      , { lineBoil := none, applied := false, stdMat := some 9,
          boilMat := none, children := [3] }
      , { lineBoil := none, applied := false, stdMat := some 5,
          boilMat := none, children := [] } ]
    standard_materials := [(5, 77)]
    line_boil_materials := [] }

/-- `exampleWorld` one tick later, once the host has loaded handle `9`. -/
def exampleWorld2 : World :=
  { exampleWorld with standard_materials := [(5, 77), (9, 88)] }

/-- A concrete world where node `0` is already processed but the host has
re-attached a standard-material reference to it. -/
def cleanupExample : World :=
  { nodes :=
      [ { lineBoil := none, applied := true, stdMat := some 5,
          boilMat := some 0, children := [] }
      , { lineBoil := none, applied := false, stdMat := some 5,
          boilMat := none, children := [] } ]
    standard_materials := [(5, 77)]
    line_boil_materials :=
      [{ base := 77, extension := { settings := LineBoilSettings.default } }] }

/-- A concrete world whose single, childless marked root itself carries a
resolvable standard-material reference. -/
def rootExample : World :=
  { nodes :=
      [ { lineBoil := some LineBoil.subtle, applied := false,
          stdMat := some 4, boilMat := none, children := [] } ]
    standard_materials := [(4, 11)]
    line_boil_materials := [] }

/-! ## Basic facts about the visit body and command replay -/

/-- The query success condition of src/lib.rs 285, spelled on nodes. -/
theorem mesh_query_get_eq_some (w : World) (e : ℕ) (n : Node)
    (hn : w.nodes[e]? = some n) (happ : n.applied = false) :
    mesh_query_get w e = n.stdMat := by
  simp [mesh_query_get, hn, happ]

/-- `C7`: the "aggressive" preset is exactly
`{intensity 0.04, frame_rate 4.0, noise_frequency 12.0, seed 0.0}`, the
"subtle" preset is exactly `{0.008, 8.0, 6.0, 0.0}`, and default
construction yields exactly `{0.02, 6.0, 8.0, 0.0}`. -/
theorem claim_C7_preset_literals :
    LineBoil.aggressive.settings.intensity = 0.04 ∧
    LineBoil.aggressive.settings.frame_rate = 4.0 ∧
    LineBoil.aggressive.settings.noise_frequency = 12.0 ∧
    LineBoil.aggressive.settings.seed = 0.0 ∧
    LineBoil.subtle.settings.intensity = 0.008 ∧
    LineBoil.subtle.settings.frame_rate = 8.0 ∧
    LineBoil.subtle.settings.noise_frequency = 6.0 ∧
    LineBoil.subtle.settings.seed = 0.0 ∧
    LineBoilSettings.default.intensity = 0.02 ∧
    LineBoilSettings.default.frame_rate = 6.0 ∧
    LineBoilSettings.default.noise_frequency = 8.0 ∧
    LineBoilSettings.default.seed = 0.0 ∧
    LineBoil.new.settings = LineBoilSettings.default :=
  ⟨rfl, rfl, rfl, rfl, rfl, rfl, rfl, rfl, rfl, rfl, rfl, rfl, rfl⟩

/-- `C9`: each fluent builder sets exactly the named field to the supplied
value — for every input value, with no clamping — and leaves every other
field unchanged. -/
theorem claim_C9_builders (lb : LineBoil) (v : ℚ) :
    (lb.with_intensity v).settings.intensity = v ∧
    (lb.with_intensity v).settings.frame_rate = lb.settings.frame_rate ∧
    (lb.with_intensity v).settings.noise_frequency = lb.settings.noise_frequency ∧
    (lb.with_intensity v).settings.seed = lb.settings.seed ∧
    (lb.with_intensity v).settings.time = lb.settings.time ∧
    (lb.with_frame_rate v).settings.frame_rate = v ∧
    (lb.with_frame_rate v).settings.intensity = lb.settings.intensity ∧
    (lb.with_frame_rate v).settings.noise_frequency = lb.settings.noise_frequency ∧
    (lb.with_frame_rate v).settings.seed = lb.settings.seed ∧
    (lb.with_frame_rate v).settings.time = lb.settings.time ∧
    (lb.with_noise_frequency v).settings.noise_frequency = v ∧
    (lb.with_noise_frequency v).settings.intensity = lb.settings.intensity ∧
    (lb.with_noise_frequency v).settings.frame_rate = lb.settings.frame_rate ∧
    (lb.with_noise_frequency v).settings.seed = lb.settings.seed ∧
    (lb.with_noise_frequency v).settings.time = lb.settings.time ∧
    (lb.with_seed v).settings.seed = v ∧
    (lb.with_seed v).settings.intensity = lb.settings.intensity ∧
    (lb.with_seed v).settings.frame_rate = lb.settings.frame_rate ∧
    (lb.with_seed v).settings.noise_frequency = lb.settings.noise_frequency ∧
    (lb.with_seed v).settings.time = lb.settings.time :=
  ⟨rfl, rfl, rfl, rfl, rfl, rfl, rfl, rfl, rfl, rfl,
   rfl, rfl, rfl, rfl, rfl, rfl, rfl, rfl, rfl, rfl⟩

/-- `C5`: the Per-Frame Parameter Updater sets the `time` field of every
live composed material to the current elapsed-time sample and mutates no
other field: base snapshot, intensity, frame_rate, noise_frequency and seed
all keep their stored (creation-time) values, and no material is added or
removed. -/
theorem claim_C5_updater (t : ℚ) (w : World) :
    (update_line_boil_time t w).line_boil_materials.length
        = w.line_boil_materials.length ∧
    (update_line_boil_time t w).nodes = w.nodes ∧
    (update_line_boil_time t w).standard_materials = w.standard_materials ∧
    ∀ (i : ℕ) (m : ExtendedMaterial), w.line_boil_materials[i]? = some m →
      ∃ m', (update_line_boil_time t w).line_boil_materials[i]? = some m' ∧
        m'.extension.settings.time = t ∧
        m'.base = m.base ∧
        m'.extension.settings.intensity = m.extension.settings.intensity ∧
        m'.extension.settings.frame_rate = m.extension.settings.frame_rate ∧
        m'.extension.settings.noise_frequency = m.extension.settings.noise_frequency ∧
        m'.extension.settings.seed = m.extension.settings.seed := by
  refine ⟨by simp [update_line_boil_time], rfl, rfl, ?_⟩
  intro i m hm
  refine ⟨{ m with extension := { m.extension with
      settings := { m.extension.settings with time := t } } },
    ?_, rfl, rfl, rfl, rfl, rfl, rfl⟩
  simp [update_line_boil_time, hm]

/-- `C1`: at every visited node that exposes a base-surface-material
reference, does not carry the Processed Tag, and whose reference resolves,
the traversal body composes the extended material from the resolved snapshot
and the marker's settings, appends it to the registry, and buffers the
command that — once replayed — removes the standard-material reference,
points the node at the new composed material, and attaches the tag. -/
theorem claim_C1_visit_converts (w : World) (lb : LineBoil) (e : ℕ)
    (st : PassState) (n : Node) (hdl : ℕ) (m : StandardMaterial)
    (hn : w.nodes[e]? = some n) (happ : n.applied = false)
    (hstd : n.stdMat = some hdl)
    (hres : standard_materials_get w.standard_materials hdl = some m) :
    (visit_entity w lb e st).line_boil_materials
        = st.line_boil_materials
            ++ [{ base := m, extension := { settings := lb.settings } }] ∧
    (visit_entity w lb e st).commands
        = st.commands ++ [Cmd.replaceMaterial e st.line_boil_materials.length] ∧
    ∀ nodes' : List Node, nodes'[e]? = some n →
      (apply_cmd nodes' (Cmd.replaceMaterial e st.line_boil_materials.length))[e]?
        = some { n with
                  stdMat := none
                  boilMat := some st.line_boil_materials.length
                  applied := true } := by
  have hq : mesh_query_get w e = some hdl := by
    rw [mesh_query_get_eq_some w e n hn happ, hstd]
  refine ⟨?_, ?_, ?_⟩
  · simp [visit_entity, hq, hres]
  · simp [visit_entity, hq, hres]
  · intro nodes' hn'
    have hlt : e < nodes'.length := by
      rcases List.getElem?_eq_some.mp hn' with ⟨h, _⟩
      exact h
    simp [apply_cmd, hn', List.getElem?_set_self hlt]

/-- `apply_commands` over a buffer of plain removal commands acts pointwise:
an entity's node loses its standard-material reference exactly when some
removal command targets it. -/
theorem apply_commands_removeStd_pointwise (cmds : List Cmd) :
    ∀ (nodes : List Node),
      (∀ c ∈ cmds, ∃ y, c = Cmd.removeStdMaterial y) →
      ∀ x : ℕ,
        (apply_commands nodes cmds)[x]? =
          (nodes[x]?).map (fun n =>
            if Cmd.removeStdMaterial x ∈ cmds then { n with stdMat := none }
            else n) := by
  induction cmds with
  | nil =>
    intro nodes _ x
    simp [apply_commands]
  | cons c rest ih =>
    intro nodes hall x
    rcases hall c (by simp) with ⟨y, rfl⟩
    have hrest : ∀ c ∈ rest, ∃ y, c = Cmd.removeStdMaterial y :=
      fun c hc => hall c (List.mem_cons_of_mem _ hc)
    have step : apply_commands nodes (Cmd.removeStdMaterial y :: rest)
        = apply_commands (apply_cmd nodes (Cmd.removeStdMaterial y)) rest := rfl
    rw [step, ih _ hrest x]
    by_cases hyx : y = x
    · subst hyx
      cases hny : nodes[y]? with
      | none =>
        simp [apply_cmd, hny]
      | some n =>
        have hlt : y < nodes.length := by
          rcases List.getElem?_eq_some.mp hny with ⟨h, _⟩
          exact h
        simp only [apply_cmd, hny, List.getElem?_set_self hlt,
          Option.map_some']
        by_cases hmem : Cmd.removeStdMaterial y ∈ rest <;>
          simp [hmem]
    · have hne : (apply_cmd nodes (Cmd.removeStdMaterial y))[x]? = nodes[x]? := by
        cases hny : nodes[y]? with
        | none => simp [apply_cmd, hny]
        | some n => simp [apply_cmd, hny, List.getElem?_set_ne hyx]
      rw [hne]
      have hmem : (Cmd.removeStdMaterial x ∈ Cmd.removeStdMaterial y :: rest)
          ↔ (Cmd.removeStdMaterial x ∈ rest) := by
        constructor
        · intro h
          rcases List.mem_cons.mp h with h | h
          · cases h
            exact absurd rfl hyx
          · exact h
        · exact fun h => List.mem_cons_of_mem _ h
      simp only [hmem]

/-- Every command in the cleanup buffer is a removal command. -/
theorem cleanup_query_all_removeStd (w : World) :
    ∀ c ∈ cleanup_query w, ∃ y, c = Cmd.removeStdMaterial y := by
  intro c hc
  rcases List.mem_filterMap.mp hc with ⟨a, _, ha⟩
  cases hna : w.nodes[a]? with
  | none => rw [hna] at ha; cases ha
  | some n =>
    rw [hna] at ha
    have ha' : (if (n.applied && n.stdMat.isSome) = true
        then some (Cmd.removeStdMaterial a) else none) = some c := ha
    by_cases hcond : n.applied && n.stdMat.isSome
    · rw [if_pos hcond] at ha'
      exact ⟨a, (Option.some_inj.mp ha').symm⟩
    · rw [if_neg hcond] at ha'
      cases ha'

/-- A removal command for `x` sits in the cleanup buffer exactly when node
`x` carries both the tag and a standard-material reference. -/
theorem cleanup_query_mem (w : World) (x : ℕ) :
    (Cmd.removeStdMaterial x ∈ cleanup_query w)
      ↔ ∃ n, w.nodes[x]? = some n ∧ (n.applied && n.stdMat.isSome) = true := by
  constructor
  · intro h
    rcases List.mem_filterMap.mp h with ⟨a, _, ha⟩
    cases hna : w.nodes[a]? with
    | none => rw [hna] at ha; cases ha
    | some n =>
      rw [hna] at ha
      have ha' : (if (n.applied && n.stdMat.isSome) = true
          then some (Cmd.removeStdMaterial a) else none)
          = some (Cmd.removeStdMaterial x) := ha
      by_cases hcond : n.applied && n.stdMat.isSome
      · rw [if_pos hcond] at ha'
        have hax : a = x := by cases ha'; rfl
        subst hax
        exact ⟨n, hna, hcond⟩
      · rw [if_neg hcond] at ha'
        cases ha'
  · rintro ⟨n, hn, hcond⟩
    apply List.mem_filterMap.mpr
    refine ⟨x, ?_, ?_⟩
    · apply List.mem_range.mpr
      rcases List.getElem?_eq_some.mp hn with ⟨h, _⟩
      exact h
    · show (match w.nodes[x]? with
        | some n =>
          if (n.applied && n.stdMat.isSome) = true
          then some (Cmd.removeStdMaterial x) else none
        | none => none) = some (Cmd.removeStdMaterial x)
      rw [hn]
      show (if (n.applied && n.stdMat.isSome) = true
          then some (Cmd.removeStdMaterial x) else none)
          = some (Cmd.removeStdMaterial x)
      rw [if_pos hcond]

/-- Pointwise description of one cleanup pass. -/
theorem cleanup_pointwise (w : World) (x : ℕ) (n : Node)
    (hn : w.nodes[x]? = some n) :
    (cleanup_old_materials w).nodes[x]?
      = some (if n.applied && n.stdMat.isSome then { n with stdMat := none }
              else n) := by
  have h := apply_commands_removeStd_pointwise (cleanup_query w) w.nodes
    (cleanup_query_all_removeStd w) x
  rw [cleanup_old_materials]
  rw [h, hn, Option.map_some']
  by_cases hcond : n.applied && n.stdMat.isSome
  · rw [if_pos hcond, if_pos ((cleanup_query_mem w x).mpr ⟨n, hn, hcond⟩)]
  · rw [if_neg hcond, if_neg ?_]
    intro hmem
    rcases (cleanup_query_mem w x).mp hmem with ⟨n', hn', hcond'⟩
    rw [hn] at hn'
    cases hn'
    exact hcond hcond'

/-- Replaying commands never changes the number of nodes. -/
theorem apply_commands_length (cmds : List Cmd) :
    ∀ nodes : List Node, (apply_commands nodes cmds).length = nodes.length := by
  induction cmds with
  | nil => intro nodes; rfl
  | cons c rest ih =>
    intro nodes
    have step : apply_commands nodes (c :: rest)
        = apply_commands (apply_cmd nodes c) rest := rfl
    rw [step, ih]
    cases c with
    | replaceMaterial e h =>
      cases hne : nodes[e]? with
      | some n => simp [apply_cmd, hne]
      | none => simp [apply_cmd, hne]
    | removeStdMaterial e =>
      cases hne : nodes[e]? with
      | some n => simp [apply_cmd, hne]
      | none => simp [apply_cmd, hne]

/-- On a world where no node carries both the tag and a standard-material
reference, the cleanup query is empty. -/
theorem cleanup_query_of_clean (w : World)
    (hclean : ∀ (x : ℕ) (n : Node), w.nodes[x]? = some n →
      (n.applied && n.stdMat.isSome) = false) :
    cleanup_query w = [] := by
  apply List.filterMap_eq_nil_iff.mpr
  intro a _
  cases hna : w.nodes[a]? with
  | none => rfl
  | some n =>
    show (if (n.applied && n.stdMat.isSome) = true
        then some (Cmd.removeStdMaterial a) else none) = none
    rw [if_neg]
    rw [hclean a n hna]
    simp

/-- After one cleanup pass no node carries both the tag and a
standard-material reference. -/
theorem cleanup_clean (w : World) :
    ∀ (x : ℕ) (n' : Node), (cleanup_old_materials w).nodes[x]? = some n' →
      (n'.applied && n'.stdMat.isSome) = false := by
  intro x n' hx
  have hlen : (cleanup_old_materials w).nodes.length = w.nodes.length :=
    apply_commands_length _ _
  have hlt : x < w.nodes.length := by
    rcases List.getElem?_eq_some.mp hx with ⟨h, _⟩
    rw [hlen] at h
    exact h
  have hn : w.nodes[x]? = some w.nodes[x] := List.getElem?_eq_getElem hlt
  have hp := cleanup_pointwise w x _ hn
  rw [hx] at hp
  by_cases hcond : w.nodes[x].applied && w.nodes[x].stdMat.isSome
  · rw [if_pos hcond] at hp
    cases hp
    simp
  · rw [if_neg hcond] at hp
    cases hp
    simpa using hcond

/-- `C3`: after Cleanup has run, no node carries both the Processed Tag and
a base-surface-material reference; Cleanup strips exactly the base reference
from every node carrying both and leaves every other node untouched; and
re-running Cleanup changes nothing. -/
theorem claim_C3_cleanup (w : World) :
    (∀ (x : ℕ) (n : Node), w.nodes[x]? = some n →
      (cleanup_old_materials w).nodes[x]?
        = some (if n.applied && n.stdMat.isSome then { n with stdMat := none }
                else n)) ∧
    (∀ (x : ℕ) (n' : Node), (cleanup_old_materials w).nodes[x]? = some n' →
      ¬(n'.applied = true ∧ n'.stdMat.isSome = true)) ∧
    cleanup_old_materials (cleanup_old_materials w) = cleanup_old_materials w := by
  refine ⟨fun x n hn => cleanup_pointwise w x n hn, ?_, ?_⟩
  · intro x n' hx ⟨h1, h2⟩
    have h := cleanup_clean w x n' hx
    rw [h1, h2] at h
    cases h
  · show { cleanup_old_materials w with
        nodes := apply_commands (cleanup_old_materials w).nodes
          (cleanup_query (cleanup_old_materials w)) } = cleanup_old_materials w
    rw [cleanup_query_of_clean _ (cleanup_clean w)]
    rfl

/-! ## The traversal pass only appends -/

theorem grows_to_refl (st : PassState) : grows_to st st := by
  refine ⟨[], [], ?_⟩
  cases st
  simp

theorem grows_to_trans {s1 s2 s3 : PassState}
    (h12 : grows_to s1 s2) (h23 : grows_to s2 s3) : grows_to s1 s3 := by
  rcases h12 with ⟨ms1, cs1, rfl⟩
  rcases h23 with ⟨ms2, cs2, rfl⟩
  exact ⟨ms1 ++ ms2, cs1 ++ cs2, by simp⟩

/-- The visit body either does nothing, or — on a successful mesh query and
asset resolution — appends the composed material and the replace command. -/
theorem visit_entity_cases (w : World) (lb : LineBoil) (e : ℕ)
    (st : PassState) :
    visit_entity w lb e st = st ∨
    ∃ hdl m, mesh_query_get w e = some hdl ∧
      standard_materials_get w.standard_materials hdl = some m ∧
      visit_entity w lb e st =
        { line_boil_materials := st.line_boil_materials ++
            [{ base := m, extension := { settings := lb.settings } }]
          commands := st.commands ++
            [Cmd.replaceMaterial e st.line_boil_materials.length] } := by
  cases hq : mesh_query_get w e with
  | none =>
    left
    simp [visit_entity, hq]
  | some hdl =>
    cases hr : standard_materials_get w.standard_materials hdl with
    | none =>
      left
      simp [visit_entity, hq, hr]
    | some m =>
      right
      refine ⟨hdl, m, rfl, hr, ?_⟩
      simp [visit_entity, hq, hr]

theorem visit_entity_grows (w : World) (lb : LineBoil) (e : ℕ)
    (st : PassState) : grows_to st (visit_entity w lb e st) := by
  rcases visit_entity_cases w lb e st with h | ⟨hdl, m, _, _, h⟩
  · rw [h]; exact grows_to_refl st
  · rw [h]; exact ⟨_, _, rfl⟩

/-- A blocked visit is a state no-op. -/
theorem visit_entity_blocked (w : World) (lb : LineBoil) (e : ℕ)
    (st : PassState) (hb : visit_blocked w e) :
    visit_entity w lb e st = st := by
  rcases visit_entity_cases w lb e st with h | ⟨hdl, m, hq, hr, _⟩
  · exact h
  · rw [hb hdl hq] at hr
    cases hr

theorem foldl_grows {α : Type} (f : PassState → α → PassState) (l : List α)
    (hf : ∀ st c, grows_to st (f st c)) :
    ∀ st : PassState, grows_to st (l.foldl f st) := by
  induction l with
  | nil => intro st; exact grows_to_refl st
  | cons c rest ih =>
    intro st
    exact grows_to_trans (hf st c) (ih (f st c))

theorem traverse_grows (w : World) (lb : LineBoil) :
    ∀ (fuel e : ℕ) (st : PassState),
      grows_to st (traverse_and_replace_materials w lb fuel e st) := by
  intro fuel
  induction fuel with
  | zero => intro e st; exact grows_to_refl st
  | succ f ih =>
    intro e st
    show grows_to st ((children_get w e).foldl
      (fun acc child => traverse_and_replace_materials w lb f child acc)
      (visit_entity w lb e st))
    exact grows_to_trans (visit_entity_grows w lb e st)
      (foldl_grows _ _ (fun st' c => ih c st') _)

theorem pass_result_grows (fuel : ℕ) (w : World) :
    grows_to { line_boil_materials := w.line_boil_materials, commands := [] }
      (pass_result fuel w) := by
  unfold pass_result
  exact foldl_grows
    (fun (st : PassState) (rl : ℕ × LineBoil) =>
      traverse_and_replace_materials w rl.2 fuel rl.1 st)
    (marked_roots w)
    (fun st rl => traverse_grows w rl.2 fuel rl.1 st)
    _

theorem grows_to_commands_mem {st st' : PassState} (h : grows_to st st')
    {c : Cmd} (hc : c ∈ st.commands) : c ∈ st'.commands := by
  rcases h with ⟨ms, cs, rfl⟩
  exact List.mem_append_left _ hc

theorem grows_to_mats_stable {st st' : PassState} (h : grows_to st st')
    {k : ℕ} {m : ExtendedMaterial}
    (hk : st.line_boil_materials[k]? = some m) :
    st'.line_boil_materials[k]? = some m := by
  rcases h with ⟨ms, cs, rfl⟩
  show (st.line_boil_materials ++ ms)[k]? = some m
  rcases List.getElem?_eq_some.mp hk with ⟨hlt, _⟩
  rw [List.getElem?_append_left hlt]
  exact hk

/-! ## Preserved invariants of the pass state -/

theorem foldl_preserve_mem {α : Type} (P : PassState → Prop) (l : List α)
    (f : PassState → α → PassState)
    (hf : ∀ st c, c ∈ l → P st → P (f st c)) :
    ∀ st : PassState, P st → P (l.foldl f st) := by
  induction l with
  | nil => intro st h; exact h
  | cons c rest ih =>
    intro st h
    exact ih (fun st' c' hc' h' => hf st' c' (List.mem_cons_of_mem _ hc') h')
      (f st c) (hf st c (List.mem_cons_self _ _) h)

theorem visit_entity_pass_inv {w : World} {S : LineBoil → Prop}
    (lb : LineBoil) (hS : S lb) (e : ℕ) {st : PassState}
    (hst : pass_inv w S st) : pass_inv w S (visit_entity w lb e st) := by
  rcases visit_entity_cases w lb e st with h | ⟨hdl, m, hq, hr, h⟩
  · rw [h]; exact hst
  · rw [h]
    intro x k hmem
    rcases List.mem_append.mp hmem with hold | hnew
    · rcases hst x k hold with ⟨hdl', m', lb', hS', hq', hr', hmat⟩
      refine ⟨hdl', m', lb', hS', hq', hr', ?_⟩
      show (st.line_boil_materials ++ _)[k]? = _
      rcases List.getElem?_eq_some.mp hmat with ⟨hlt, _⟩
      rw [List.getElem?_append_left hlt]
      exact hmat
    · have heq : Cmd.replaceMaterial x k
          = Cmd.replaceMaterial e st.line_boil_materials.length :=
        List.mem_singleton.mp hnew
      cases heq
      refine ⟨hdl, m, lb, hS, hq, hr, ?_⟩
      show (st.line_boil_materials ++ [_])[st.line_boil_materials.length]? = _
      exact List.getElem?_concat_length _ _

theorem traverse_pass_inv {w : World} {S : LineBoil → Prop}
    (lb : LineBoil) (hS : S lb) :
    ∀ (fuel e : ℕ) {st : PassState}, pass_inv w S st →
      pass_inv w S (traverse_and_replace_materials w lb fuel e st) := by
  intro fuel
  induction fuel with
  | zero => intro e st h; exact h
  | succ f ih =>
    intro e st h
    show pass_inv w S ((children_get w e).foldl
      (fun acc child => traverse_and_replace_materials w lb f child acc)
      (visit_entity w lb e st))
    exact foldl_preserve_mem _ _ _ (fun st' c _ h' => ih c h') _
      (visit_entity_pass_inv lb hS e h)

theorem pass_result_pass_inv (fuel : ℕ) (w : World) :
    pass_inv w (fun lb => ∃ r, (r, lb) ∈ marked_roots w)
      (pass_result fuel w) := by
  unfold pass_result
  apply foldl_preserve_mem
    (pass_inv w (fun lb => ∃ r, (r, lb) ∈ marked_roots w))
    (marked_roots w)
    (fun (st : PassState) (rl : ℕ × LineBoil) =>
      traverse_and_replace_materials w rl.2 fuel rl.1 st)
    (fun st rl hrl h =>
      traverse_pass_inv rl.2 ⟨rl.1, by simpa using hrl⟩ fuel rl.1 h)
  intro x k hmem
  cases hmem

theorem visit_entity_all_replace {w : World} (lb : LineBoil) (e : ℕ)
    {st : PassState} (hst : all_replace st) :
    all_replace (visit_entity w lb e st) := by
  rcases visit_entity_cases w lb e st with h | ⟨hdl, m, _, _, h⟩
  · rw [h]; exact hst
  · rw [h]
    intro c hc
    rcases List.mem_append.mp hc with hold | hnew
    · exact hst c hold
    · exact ⟨e, st.line_boil_materials.length, List.mem_singleton.mp hnew⟩

theorem traverse_all_replace {w : World} (lb : LineBoil) :
    ∀ (fuel e : ℕ) {st : PassState}, all_replace st →
      all_replace (traverse_and_replace_materials w lb fuel e st) := by
  intro fuel
  induction fuel with
  | zero => intro e st h; exact h
  | succ f ih =>
    intro e st h
    show all_replace ((children_get w e).foldl
      (fun acc child => traverse_and_replace_materials w lb f child acc)
      (visit_entity w lb e st))
    exact foldl_preserve_mem _ _ _ (fun st' c _ h' => ih c h') _
      (visit_entity_all_replace lb e h)

theorem pass_result_all_replace (fuel : ℕ) (w : World) :
    all_replace (pass_result fuel w) := by
  unfold pass_result
  apply foldl_preserve_mem
    all_replace
    (marked_roots w)
    (fun (st : PassState) (rl : ℕ × LineBoil) =>
      traverse_and_replace_materials w rl.2 fuel rl.1 st)
    (fun st rl _ h => traverse_all_replace rl.2 fuel rl.1 h)
  intro c hc
  cases hc

/-! ## Effects of command replay on the node list -/

/-- Case analysis of one command replay at one index: untouched, converted
by a replace, or stripped by a removal. -/
theorem apply_cmd_cases (nodes : List Node) (c : Cmd) (x : ℕ) :
    ((apply_cmd nodes c)[x]? = nodes[x]? ∧ (c.target ≠ x ∨ nodes[x]? = none)) ∨
    (∃ n k, c = Cmd.replaceMaterial x k ∧ nodes[x]? = some n ∧
      (apply_cmd nodes c)[x]?
        = some { n with stdMat := none, boilMat := some k, applied := true }) ∨
    (∃ n, c = Cmd.removeStdMaterial x ∧ nodes[x]? = some n ∧
      (apply_cmd nodes c)[x]? = some { n with stdMat := none }) := by
  cases c with
  | replaceMaterial e k =>
    cases hne : nodes[e]? with
    | none =>
      left
      refine ⟨by simp [apply_cmd, hne], ?_⟩
      by_cases hex : e = x
      · subst hex; exact Or.inr hne
      · exact Or.inl hex
    | some n =>
      by_cases hex : e = x
      · subst hex
        right; left
        have hlt : e < nodes.length := by
          rcases List.getElem?_eq_some.mp hne with ⟨h, _⟩
          exact h
        exact ⟨n, k, rfl, hne, by simp [apply_cmd, hne, List.getElem?_set_self hlt]⟩
      · left
        exact ⟨by simp [apply_cmd, hne, List.getElem?_set_ne hex], Or.inl hex⟩
  | removeStdMaterial e =>
    cases hne : nodes[e]? with
    | none =>
      left
      refine ⟨by simp [apply_cmd, hne], ?_⟩
      by_cases hex : e = x
      · subst hex; exact Or.inr hne
      · exact Or.inl hex
    | some n =>
      by_cases hex : e = x
      · subst hex
        right; right
        have hlt : e < nodes.length := by
          rcases List.getElem?_eq_some.mp hne with ⟨h, _⟩
          exact h
        exact ⟨n, rfl, hne, by simp [apply_cmd, hne, List.getElem?_set_self hlt]⟩
      · left
        exact ⟨by simp [apply_cmd, hne, List.getElem?_set_ne hex], Or.inl hex⟩

/-- A command whose target is elsewhere leaves the index unchanged. -/
theorem apply_cmd_not_target {nodes : List Node} {c : Cmd} {x : ℕ}
    (h : c.target ≠ x) : (apply_cmd nodes c)[x]? = nodes[x]? := by
  rcases apply_cmd_cases nodes c x with ⟨heq, _⟩ | ⟨n, k, rfl, _, _⟩ | ⟨n, rfl, _, _⟩
  · exact heq
  · exact absurd rfl h
  · exact absurd rfl h

/-- Replaying commands that all target other entities leaves the index
unchanged. -/
theorem apply_commands_not_target (cmds : List Cmd) :
    ∀ (nodes : List Node) (x : ℕ), (∀ c ∈ cmds, c.target ≠ x) →
      (apply_commands nodes cmds)[x]? = nodes[x]? := by
  induction cmds with
  | nil => intro nodes x _; rfl
  | cons c rest ih =>
    intro nodes x h
    have step : apply_commands nodes (c :: rest)
        = apply_commands (apply_cmd nodes c) rest := rfl
    rw [step, ih _ _ (fun c' hc' => h c' (List.mem_cons_of_mem _ hc'))]
    exact apply_cmd_not_target (h c (List.mem_cons_self _ _))

/-- Once a node is tagged, replaying any commands keeps it tagged. -/
theorem apply_commands_applied_mono (cmds : List Cmd) :
    ∀ (nodes : List Node) (x : ℕ) (n : Node), nodes[x]? = some n →
      n.applied = true →
      ∃ n', (apply_commands nodes cmds)[x]? = some n' ∧ n'.applied = true := by
  induction cmds with
  | nil => intro nodes x n hn ha; exact ⟨n, hn, ha⟩
  | cons c rest ih =>
    intro nodes x n hn ha
    have step : apply_commands nodes (c :: rest)
        = apply_commands (apply_cmd nodes c) rest := rfl
    rw [step]
    rcases apply_cmd_cases nodes c x with ⟨heq, _⟩ | ⟨n0, k, _, hn0, hset⟩ |
        ⟨n0, _, hn0, hset⟩
    · exact ih _ _ n (heq.trans hn) ha
    · exact ih _ _ _ hset rfl
    · rw [hn] at hn0
      cases hn0
      exact ih _ _ _ hset ha

/-- Once a node is tagged and points at a composed material, replaying any
commands keeps both: a replace re-points it, a removal only strips the
standard-material reference. -/
theorem apply_commands_applied_boilMat (cmds : List Cmd) :
    ∀ (nodes : List Node) (x : ℕ) (n : Node), nodes[x]? = some n →
      n.applied = true → n.boilMat.isSome = true →
      ∃ n', (apply_commands nodes cmds)[x]? = some n' ∧
        n'.applied = true ∧ n'.boilMat.isSome = true := by
  induction cmds with
  | nil => intro nodes x n hn ha hb; exact ⟨n, hn, ha, hb⟩
  | cons c rest ih =>
    intro nodes x n hn ha hb
    have step : apply_commands nodes (c :: rest)
        = apply_commands (apply_cmd nodes c) rest := rfl
    rw [step]
    rcases apply_cmd_cases nodes c x with ⟨heq, _⟩ | ⟨n0, k, _, hn0, hset⟩ |
        ⟨n0, _, hn0, hset⟩
    · exact ih _ _ n (heq.trans hn) ha hb
    · exact ih _ _ _ hset rfl rfl
    · rw [hn] at hn0
      cases hn0
      exact ih _ _ _ hset ha hb

/-- A tagged node in the replayed list was tagged before, or now points at a
composed material: commands attach the tag only together with a
composed-material reference. -/
theorem apply_commands_applied_source (cmds : List Cmd) :
    ∀ nodes : List Node,
      ∀ (x : ℕ) (n' : Node), (apply_commands nodes cmds)[x]? = some n' →
        n'.applied = true →
        (∃ n, nodes[x]? = some n ∧ n.applied = true) ∨
          n'.boilMat.isSome = true := by
  induction cmds with
  | nil => intro nodes x n' hx ha; exact Or.inl ⟨n', hx, ha⟩
  | cons c rest ih =>
    intro nodes x n' hx ha
    have step : apply_commands nodes (c :: rest)
        = apply_commands (apply_cmd nodes c) rest := rfl
    rw [step] at hx
    rcases apply_cmd_cases nodes c x with ⟨heq, _⟩ | ⟨n0, k, _, hn0, hset⟩ |
        ⟨n0, _, hn0, hset⟩
    · rcases ih _ x n' hx ha with ⟨n1, hn1, ha1⟩ | hsome
      · exact Or.inl ⟨n1, heq ▸ hn1, ha1⟩
      · exact Or.inr hsome
    · right
      rcases apply_commands_applied_boilMat rest _ x _ hset rfl rfl with
        ⟨n'', hn'', _, hb''⟩
      rw [hx] at hn''
      cases hn''
      exact hb''
    · rcases ih _ x n' hx ha with ⟨n1, hn1, ha1⟩ | hsome
      · rw [hset] at hn1
        cases hn1
        exact Or.inl ⟨n0, hn0, ha1⟩
      · exact Or.inr hsome

theorem apply_cmd_length (nodes : List Node) (c : Cmd) :
    (apply_cmd nodes c).length = nodes.length := by
  cases c with
  | replaceMaterial e h =>
    cases hne : nodes[e]? with
    | some n => simp [apply_cmd, hne]
    | none => simp [apply_cmd, hne]
  | removeStdMaterial e =>
    cases hne : nodes[e]? with
    | some n => simp [apply_cmd, hne]
    | none => simp [apply_cmd, hne]

/-- A converted node stays converted under further replay, provided every
replace that re-targets it still carries a handle satisfying `P`. -/
theorem apply_commands_good_persists (P : ℕ → Prop) (cmds : List Cmd) :
    ∀ (nodes : List Node) (x : ℕ) (n : Node), nodes[x]? = some n →
      good_node P n →
      (∀ c ∈ cmds, Cmd.target c = x → ∃ k, c = Cmd.replaceMaterial x k ∧ P k) →
      ∃ n', (apply_commands nodes cmds)[x]? = some n' ∧ good_node P n' := by
  induction cmds with
  | nil => intro nodes x n hn hg _; exact ⟨n, hn, hg⟩
  | cons c rest ih =>
    intro nodes x n hn hg htgt
    have htgt' : ∀ c' ∈ rest, Cmd.target c' = x →
        ∃ k, c' = Cmd.replaceMaterial x k ∧ P k :=
      fun c' hc' => htgt c' (List.mem_cons_of_mem _ hc')
    have step : apply_commands nodes (c :: rest)
        = apply_commands (apply_cmd nodes c) rest := rfl
    rw [step]
    rcases apply_cmd_cases nodes c x with ⟨heq, _⟩ | ⟨n0, k, hc, hn0, hset⟩ |
        ⟨n0, hc, hn0, hset⟩
    · exact ih _ _ n (heq.trans hn) hg htgt'
    · have hP : P k := by
        rcases htgt c (List.mem_cons_self _ _) (by rw [hc]; rfl) with ⟨k', hck', hPk'⟩
        rw [hc] at hck'
        cases hck'
        exact hPk'
      exact ih _ _ _ hset ⟨rfl, rfl, k, rfl, hP⟩ htgt'
    · rw [hn] at hn0
      cases hn0
      rcases hg with ⟨ha, _, k, hb, hP⟩
      exact ih _ _ _ hset ⟨ha, rfl, k, hb, hP⟩ htgt'

/-- If some replace command targets `x`, and every command targeting `x` is
a replace whose handle satisfies `P`, then after replay node `x` is in its
converted shape. -/
theorem apply_commands_establishes_good (P : ℕ → Prop) (cmds : List Cmd) :
    ∀ (nodes : List Node) (x : ℕ),
      (∀ c ∈ cmds, Cmd.target c = x → ∃ k, c = Cmd.replaceMaterial x k ∧ P k) →
      (∃ k, Cmd.replaceMaterial x k ∈ cmds) →
      x < nodes.length →
      ∃ n', (apply_commands nodes cmds)[x]? = some n' ∧ good_node P n' := by
  induction cmds with
  | nil =>
    intro nodes x _ hhit _
    rcases hhit with ⟨k, hk⟩
    cases hk
  | cons c rest ih =>
    intro nodes x htgt hhit hlt
    have htgt' : ∀ c' ∈ rest, Cmd.target c' = x →
        ∃ k, c' = Cmd.replaceMaterial x k ∧ P k :=
      fun c' hc' => htgt c' (List.mem_cons_of_mem _ hc')
    have step : apply_commands nodes (c :: rest)
        = apply_commands (apply_cmd nodes c) rest := rfl
    rw [step]
    by_cases hcx : Cmd.target c = x
    · rcases htgt c (List.mem_cons_self _ _) hcx with ⟨k, rfl, hPk⟩
      have hn : nodes[x]? = some nodes[x] := List.getElem?_eq_getElem hlt
      have hset : (apply_cmd nodes (Cmd.replaceMaterial x k))[x]?
          = some { nodes[x] with
                    stdMat := none, boilMat := some k, applied := true } := by
        simp [apply_cmd, hn, List.getElem?_set_self hlt]
      exact apply_commands_good_persists P rest _ x _ hset
        ⟨rfl, rfl, k, rfl, hPk⟩ htgt'
    · rcases hhit with ⟨k, hk⟩
      have hkrest : Cmd.replaceMaterial x k ∈ rest := by
        rcases List.mem_cons.mp hk with hkc | hkr
        · exfalso
          apply hcx
          rw [← hkc]
          rfl
        · exact hkr
      exact ih _ _ htgt' ⟨k, hkrest⟩ (by rw [apply_cmd_length]; exact hlt)

/-! ## Command replay touches neither markers nor hierarchy -/

theorem apply_cmd_preserves_shape (nodes : List Node) (c : Cmd) (x : ℕ) :
    ((apply_cmd nodes c)[x]?).map (fun n => (n.lineBoil, n.children))
      = (nodes[x]?).map (fun n => (n.lineBoil, n.children)) := by
  rcases apply_cmd_cases nodes c x with ⟨heq, _⟩ | ⟨n, k, _, hn, hset⟩ |
      ⟨n, _, hn, hset⟩
  · rw [heq]
  · rw [hset, hn]
    rfl
  · rw [hset, hn]
    rfl

theorem apply_commands_preserves_shape (cmds : List Cmd) :
    ∀ (nodes : List Node) (x : ℕ),
      ((apply_commands nodes cmds)[x]?).map (fun n => (n.lineBoil, n.children))
        = (nodes[x]?).map (fun n => (n.lineBoil, n.children)) := by
  induction cmds with
  | nil => intro nodes x; rfl
  | cons c rest ih =>
    intro nodes x
    have step : apply_commands nodes (c :: rest)
        = apply_commands (apply_cmd nodes c) rest := rfl
    rw [step, ih, apply_cmd_preserves_shape]

theorem apply_commands_children_get (w : World) (cmds : List Cmd) (e : ℕ) :
    children_get { w with nodes := apply_commands w.nodes cmds } e
      = children_get w e := by
  have h := apply_commands_preserves_shape cmds w.nodes e
  show (match (apply_commands w.nodes cmds)[e]? with
    | some n => n.children
    | none => []) = children_get w e
  cases hne : w.nodes[e]? with
  | none =>
    rw [hne] at h
    have : (apply_commands w.nodes cmds)[e]? = none := by
      cases hx : (apply_commands w.nodes cmds)[e]? with
      | none => rfl
      | some n2 => rw [hx] at h; cases h
    rw [this]
    simp [children_get, hne]
  | some n =>
    rw [hne] at h
    cases hx : (apply_commands w.nodes cmds)[e]? with
    | none => rw [hx] at h; cases h
    | some n2 =>
      rw [hx] at h
      have hpair : (n2.lineBoil, n2.children) = (n.lineBoil, n.children) :=
        Option.some_inj.mp h
      have hc : n2.children = n.children := congrArg Prod.snd hpair
      show n2.children = children_get w e
      rw [hc]
      simp [children_get, hne]

theorem apply_commands_marked_roots (w : World) (cmds : List Cmd) :
    marked_roots { w with nodes := apply_commands w.nodes cmds }
      = marked_roots w := by
  show (List.range (apply_commands w.nodes cmds).length).filterMap _
    = (List.range w.nodes.length).filterMap _
  rw [apply_commands_length]
  apply List.filterMap_congr
  intro e _
  have h := apply_commands_preserves_shape cmds w.nodes e
  cases hne : w.nodes[e]? with
  | none =>
    rw [hne] at h
    cases hx : (apply_commands w.nodes cmds)[e]? with
    | none => rfl
    | some n2 => rw [hx] at h; cases h
  | some n =>
    rw [hne] at h
    cases hx : (apply_commands w.nodes cmds)[e]? with
    | none => rw [hx] at h; cases h
    | some n2 =>
      rw [hx] at h
      have hpair : (n2.lineBoil, n2.children) = (n.lineBoil, n.children) :=
        Option.some_inj.mp h
      have hl : n2.lineBoil = n.lineBoil := congrArg Prod.fst hpair
      show Option.map (fun lb => (e, lb)) n2.lineBoil
        = Option.map (fun lb => (e, lb)) n.lineBoil
      rw [hl]

theorem visited_entities_congr (w w' : World)
    (hch : ∀ e, children_get w' e = children_get w e) :
    ∀ fuel e, visited_entities w' fuel e = visited_entities w fuel e := by
  intro fuel
  induction fuel with
  | zero => intro e; rfl
  | succ f ih =>
    intro e
    show e :: (children_get w' e).flatMap (visited_entities w' f)
        = e :: (children_get w e).flatMap (visited_entities w f)
    rw [hch e, funext ih]

theorem mesh_query_get_congr {w w' : World} {e : ℕ}
    (h : w'.nodes[e]? = w.nodes[e]?) :
    mesh_query_get w' e = mesh_query_get w e := by
  unfold mesh_query_get
  rw [h]

/-! ## A fully blocked traversal is the identity -/

theorem foldl_id {α : Type} (f : PassState → α → PassState) (l : List α)
    (h : ∀ c ∈ l, ∀ st, f st c = st) : ∀ st : PassState, l.foldl f st = st := by
  induction l with
  | nil => intro st; rfl
  | cons c rest ih =>
    intro st
    rw [List.foldl_cons, h c (List.mem_cons_self _ _),
      ih (fun c' hc' st' => h c' (List.mem_cons_of_mem _ hc') st')]

theorem mem_visited_self (w : World) (fuel e : ℕ) :
    e ∈ visited_entities w (fuel + 1) e := by
  show e ∈ e :: _
  exact List.mem_cons_self _ _

theorem mem_visited_child (w : World) {fuel e c x : ℕ}
    (hc : c ∈ children_get w e) (hx : x ∈ visited_entities w fuel c) :
    x ∈ visited_entities w (fuel + 1) e := by
  show x ∈ e :: (children_get w e).flatMap (visited_entities w fuel)
  exact List.mem_cons_of_mem _ (List.mem_flatMap.mpr ⟨c, hc, hx⟩)

theorem traverse_blocked_id (w : World) (lb : LineBoil) :
    ∀ fuel e : ℕ, (∀ x ∈ visited_entities w fuel e, visit_blocked w x) →
      ∀ st : PassState, traverse_and_replace_materials w lb fuel e st = st := by
  intro fuel
  induction fuel with
  | zero => intro e _ st; rfl
  | succ f ih =>
    intro e hb st
    show (children_get w e).foldl
      (fun acc child => traverse_and_replace_materials w lb f child acc)
      (visit_entity w lb e st) = st
    rw [visit_entity_blocked w lb e st (hb e (mem_visited_self w f e))]
    exact foldl_id _ _
      (fun c hc st' => ih c
        (fun x hx => hb x (mem_visited_child w hc hx)) st') st

/-! ## A visited, unblocked node gets a replace command -/

theorem not_blocked_elim {w : World} {x : ℕ} (hnb : ¬ visit_blocked w x) :
    ∃ hdl m, mesh_query_get w x = some hdl ∧
      standard_materials_get w.standard_materials hdl = some m := by
  unfold visit_blocked at hnb
  push_neg at hnb
  rcases hnb with ⟨hdl, hq, hr⟩
  cases hres : standard_materials_get w.standard_materials hdl with
  | none => exact absurd hres hr
  | some m => exact ⟨hdl, m, hq, hres⟩

theorem traverse_command_exists (w : World) (lb : LineBoil) :
    ∀ (fuel e : ℕ) (st : PassState) (x : ℕ),
      x ∈ visited_entities w fuel e → ¬ visit_blocked w x →
      ∃ k, Cmd.replaceMaterial x k
        ∈ (traverse_and_replace_materials w lb fuel e st).commands := by
  intro fuel
  induction fuel with
  | zero =>
    intro e st x hx _
    cases hx
  | succ f ih =>
    intro e st x hx hnb
    have hsplit : x = e ∨ ∃ c ∈ children_get w e, x ∈ visited_entities w f c := by
      rcases List.mem_cons.mp hx with h | h
      · exact Or.inl h
      · exact Or.inr (List.mem_flatMap.mp h)
    have hshow : traverse_and_replace_materials w lb (f + 1) e st
        = (children_get w e).foldl
            (fun acc child => traverse_and_replace_materials w lb f child acc)
            (visit_entity w lb e st) := rfl
    rw [hshow]
    rcases hsplit with rfl | ⟨c, hc, hxc⟩
    · rcases not_blocked_elim hnb with ⟨hdl, m, hq, hr⟩
      have hvisit : visit_entity w lb x st =
          { line_boil_materials := st.line_boil_materials ++
              [{ base := m, extension := { settings := lb.settings } }]
            commands := st.commands ++
              [Cmd.replaceMaterial x st.line_boil_materials.length] } := by
        simp [visit_entity, hq, hr]
      refine ⟨st.line_boil_materials.length,
        grows_to_commands_mem
          (foldl_grows _ _ (fun st' c => traverse_grows w lb f c st') _) ?_⟩
      rw [hvisit]
      exact List.mem_append_right _ (List.mem_singleton.mpr rfl)
    · rcases List.append_of_mem hc with ⟨l1, l2, hl⟩
      rw [hl, List.foldl_append, List.foldl_cons]
      rcases ih c _ x hxc hnb with ⟨k, hk⟩
      exact ⟨k, grows_to_commands_mem
        (foldl_grows _ l2 (fun st' c' => traverse_grows w lb f c' st') _) hk⟩

theorem pass_command_exists (fuel : ℕ) (w : World) (r : ℕ) (lb : LineBoil)
    (hroot : (r, lb) ∈ marked_roots w) (x : ℕ)
    (hx : x ∈ visited_entities w fuel r) (hnb : ¬ visit_blocked w x) :
    ∃ k, Cmd.replaceMaterial x k ∈ (pass_result fuel w).commands := by
  rcases List.append_of_mem hroot with ⟨l1, l2, hl⟩
  unfold pass_result
  rw [hl, List.foldl_append, List.foldl_cons]
  rcases traverse_command_exists w lb fuel r
    (List.foldl
      (fun (st : PassState) (rl : ℕ × LineBoil) =>
        traverse_and_replace_materials w rl.2 fuel rl.1 st)
      { line_boil_materials := w.line_boil_materials, commands := [] } l1)
    x hx hnb with ⟨k, hk⟩
  exact ⟨k, grows_to_commands_mem
    (foldl_grows _ l2 (fun st' rl => traverse_grows w rl.2 fuel rl.1 st') _) hk⟩

/-! ## After one pass, a second pass has nothing to do -/

theorem mesh_query_some_node {w : World} {x hdl : ℕ}
    (h : mesh_query_get w x = some hdl) :
    ∃ n, w.nodes[x]? = some n ∧ n.applied = false ∧ n.stdMat = some hdl := by
  unfold mesh_query_get at h
  cases hn : w.nodes[x]? with
  | none => rw [hn] at h; cases h
  | some n =>
    rw [hn] at h
    have h' : (if n.applied = true then none else n.stdMat) = some hdl := h
    cases ha : n.applied with
    | true =>
      rw [ha] at h'
      simp at h'
    | false =>
      rw [ha] at h'
      simp at h'
      exact ⟨n, rfl, ha, h'⟩

theorem mesh_query_none_of_applied {w : World} {x : ℕ} {n : Node}
    (hn : w.nodes[x]? = some n) (ha : n.applied = true) :
    mesh_query_get w x = none := by
  unfold mesh_query_get
  rw [hn]
  show (if n.applied = true then none else n.stdMat) = none
  rw [ha]
  simp

/-- After the traversal system has run, every node that was visited from a
marked root is blocked: either it got converted and tagged (so the mesh
query now fails), or its visit was already blocked and its components were
left untouched. -/
theorem pass_blocked_after (fuel : ℕ) (w : World) (r : ℕ) (lb : LineBoil)
    (hroot : (r, lb) ∈ marked_roots w) (x : ℕ)
    (hx : x ∈ visited_entities w fuel r) :
    visit_blocked (apply_line_boil_to_marked_entities fuel w) x := by
  by_cases hb : visit_blocked w x
  · -- blocked before the pass: no command can target x, so x is untouched
    have hnotgt : ∀ c ∈ (pass_result fuel w).commands, Cmd.target c ≠ x := by
      intro c hc htgt
      rcases pass_result_all_replace fuel w c hc with ⟨x', k, rfl⟩
      have hx' : x' = x := htgt
      subst hx'
      rcases pass_result_pass_inv fuel w x' k hc with
        ⟨hdl, m, _, _, hq, hr, _⟩
      rw [hb hdl hq] at hr
      cases hr
    have hunch : (apply_line_boil_to_marked_entities fuel w).nodes[x]?
        = w.nodes[x]? :=
      apply_commands_not_target _ _ _ hnotgt
    intro hdl hq
    rw [mesh_query_get_congr hunch] at hq
    exact hb hdl hq
  · -- unblocked before the pass: it got a replace command, so it is tagged
    rcases pass_command_exists fuel w r lb hroot x hx hb with ⟨k, hk⟩
    rcases not_blocked_elim hb with ⟨hdl, m, hq, _⟩
    rcases mesh_query_some_node hq with ⟨n, hn, _, _⟩
    have hlt : x < w.nodes.length := by
      rcases List.getElem?_eq_some.mp hn with ⟨h, _⟩
      exact h
    have htgt : ∀ c ∈ (pass_result fuel w).commands, Cmd.target c = x →
        ∃ k', c = Cmd.replaceMaterial x k' ∧ True := by
      intro c hc hct
      rcases pass_result_all_replace fuel w c hc with ⟨x', k', rfl⟩
      have hx' : x' = x := hct
      subst hx'
      exact ⟨k', rfl, trivial⟩
    rcases apply_commands_establishes_good (fun _ => True)
      (pass_result fuel w).commands w.nodes x htgt ⟨k, hk⟩ hlt with
      ⟨n', hn', ha', _, _⟩
    intro hdl' hq'
    have : mesh_query_get (apply_line_boil_to_marked_entities fuel w) x
        = none :=
      mesh_query_none_of_applied hn' ha'
    rw [this] at hq'
    cases hq'

/-- `C2`: running the Traversal Engine twice in succession on an unchanged
world is idempotent — the second run creates no composed materials and
returns the world of the first run unchanged (nodes, tags, references and
the registry included). -/
theorem claim_C2_idempotent (fuel : ℕ) (w : World) :
    apply_line_boil_to_marked_entities fuel
        (apply_line_boil_to_marked_entities fuel w)
      = apply_line_boil_to_marked_entities fuel w := by
  have hroots : marked_roots (apply_line_boil_to_marked_entities fuel w)
      = marked_roots w := apply_commands_marked_roots w _
  have hch : ∀ e, children_get (apply_line_boil_to_marked_entities fuel w) e
      = children_get w e := fun e => apply_commands_children_get w _ e
  have hvis := visited_entities_congr w
    (apply_line_boil_to_marked_entities fuel w) hch
  have hblocked : ∀ rl ∈ marked_roots (apply_line_boil_to_marked_entities fuel w),
      ∀ st : PassState,
        traverse_and_replace_materials
          (apply_line_boil_to_marked_entities fuel w) rl.2 fuel rl.1 st = st := by
    intro rl hrl st
    apply traverse_blocked_id
    intro x hx
    rw [hvis fuel rl.1] at hx
    rw [hroots] at hrl
    exact pass_blocked_after fuel w rl.1 rl.2 (by simpa using hrl) x hx
  have hpass : pass_result fuel (apply_line_boil_to_marked_entities fuel w)
      = { line_boil_materials :=
            (apply_line_boil_to_marked_entities fuel w).line_boil_materials
          commands := [] } := by
    unfold pass_result
    exact foldl_id _ _ (fun rl hrl st => hblocked rl hrl st) _
  show { apply_line_boil_to_marked_entities fuel w with
      nodes := apply_commands (apply_line_boil_to_marked_entities fuel w).nodes
        (pass_result fuel (apply_line_boil_to_marked_entities fuel w)).commands
      line_boil_materials :=
        (pass_result fuel
          (apply_line_boil_to_marked_entities fuel w)).line_boil_materials }
    = apply_line_boil_to_marked_entities fuel w
  rw [hpass]
  rfl

/-- `C4`: an unresolvable base-material reference is not an error: the
visited node is left completely unchanged by the whole tick (no tag, no
material change), so it is retried on the next tick; and on a tick where
the reference resolves and the node is visited from a marked root, it is
converted and tagged in that very pass. -/
theorem claim_C4_deferred_resolution :
    (∀ (fuel : ℕ) (t : ℚ) (w : World) (e : ℕ) (n : Node) (hdl : ℕ),
      w.nodes[e]? = some n → n.applied = false → n.stdMat = some hdl →
      standard_materials_get w.standard_materials hdl = none →
      (tick fuel t w).nodes[e]? = some n) ∧
    (∀ (fuel : ℕ) (w2 : World) (r : ℕ) (lb : LineBoil) (e : ℕ) (n2 : Node)
        (hdl : ℕ) (m : StandardMaterial),
      (r, lb) ∈ marked_roots w2 → e ∈ visited_entities w2 fuel r →
      w2.nodes[e]? = some n2 → n2.applied = false → n2.stdMat = some hdl →
      standard_materials_get w2.standard_materials hdl = some m →
      ∃ n', (apply_line_boil_to_marked_entities fuel w2).nodes[e]? = some n' ∧
        n'.applied = true ∧ n'.stdMat = none ∧ ∃ k, n'.boilMat = some k) := by
  constructor
  · intro fuel t w e n hdl hn happ hstd hres
    have hq : mesh_query_get w e = some hdl := by
      rw [mesh_query_get_eq_some w e n hn happ, hstd]
    have hb : visit_blocked w e := by
      intro hdl' hq'
      rw [hq] at hq'
      cases hq'
      exact hres
    have hnotgt : ∀ c ∈ (pass_result fuel w).commands, Cmd.target c ≠ e := by
      intro c hc htgt
      rcases pass_result_all_replace fuel w c hc with ⟨x', k, rfl⟩
      have hx' : x' = e := htgt
      subst hx'
      rcases pass_result_pass_inv fuel w x' k hc with
        ⟨hdl', m', _, _, hq', hr', _⟩
      rw [hb hdl' hq'] at hr'
      cases hr'
    have h1 : (apply_line_boil_to_marked_entities fuel w).nodes[e]?
        = some n := by
      show (apply_commands w.nodes (pass_result fuel w).commands)[e]? = some n
      rw [apply_commands_not_target _ _ _ hnotgt]
      exact hn
    have hcond : (n.applied && n.stdMat.isSome) = false := by
      rw [happ]
      rfl
    have h2 := cleanup_pointwise (apply_line_boil_to_marked_entities fuel w)
      e n h1
    rw [hcond] at h2
    exact h2
  · intro fuel w2 r lb e n2 hdl m hroot hx hn happ hstd hres
    have hq : mesh_query_get w2 e = some hdl := by
      rw [mesh_query_get_eq_some w2 e n2 hn happ, hstd]
    have hnb : ¬ visit_blocked w2 e := by
      intro hb
      rw [hb hdl hq] at hres
      cases hres
    rcases pass_command_exists fuel w2 r lb hroot e hx hnb with ⟨k0, hk0⟩
    have hlt : e < w2.nodes.length := by
      rcases List.getElem?_eq_some.mp hn with ⟨h, _⟩
      exact h
    have htgt : ∀ c ∈ (pass_result fuel w2).commands, Cmd.target c = e →
        ∃ k, c = Cmd.replaceMaterial e k ∧ True := by
      intro c hc hct
      rcases pass_result_all_replace fuel w2 c hc with ⟨x', k', rfl⟩
      have hx' : x' = e := hct
      subst hx'
      exact ⟨k', rfl, trivial⟩
    rcases apply_commands_establishes_good (fun _ => True)
      (pass_result fuel w2).commands w2.nodes e htgt ⟨k0, hk0⟩ hlt with
      ⟨n', hn', ha', hs', k, hb', _⟩
    exact ⟨n', hn', ha', hs', k, hb'⟩

/-! ## Parameter propagation -/

theorem foldl_mem_or {α : Type} (Q : ExtendedMaterial → Prop)
    (f : PassState → α → PassState) (l : List α)
    (hf : ∀ (st : PassState) (c : α), c ∈ l →
      ∀ m ∈ (f st c).line_boil_materials, m ∈ st.line_boil_materials ∨ Q m) :
    ∀ (st : PassState), ∀ m ∈ (l.foldl f st).line_boil_materials,
      m ∈ st.line_boil_materials ∨ Q m := by
  induction l with
  | nil => intro st m hm; exact Or.inl hm
  | cons c rest ih =>
    intro st m hm
    rcases ih (fun st' c' hc' => hf st' c' (List.mem_cons_of_mem _ hc'))
        (f st c) m hm with h | h
    · exact hf st c (List.mem_cons_self _ _) m h
    · exact Or.inr h

theorem visit_entity_new_materials (w : World) (lb : LineBoil) (e : ℕ)
    (st : PassState) :
    ∀ m ∈ (visit_entity w lb e st).line_boil_materials,
      m ∈ st.line_boil_materials ∨ m.extension.settings = lb.settings := by
  intro m hm
  rcases visit_entity_cases w lb e st with h | ⟨hdl, m0, _, _, h⟩
  · rw [h] at hm
    exact Or.inl hm
  · rw [h] at hm
    rcases List.mem_append.mp hm with hold | hnew
    · exact Or.inl hold
    · right
      rw [List.mem_singleton.mp hnew]

/-- Every material the traversal adds carries the settings of the marker it
was started with: the parameters are passed down by value, unchanged. -/
theorem traverse_new_materials (w : World) (lb : LineBoil) :
    ∀ (fuel e : ℕ) (st : PassState),
      ∀ m ∈ (traverse_and_replace_materials w lb fuel e st).line_boil_materials,
        m ∈ st.line_boil_materials ∨ m.extension.settings = lb.settings := by
  intro fuel
  induction fuel with
  | zero => intro e st m hm; exact Or.inl hm
  | succ f ih =>
    intro e st m hm
    have hshow : traverse_and_replace_materials w lb (f + 1) e st
        = (children_get w e).foldl
            (fun acc child => traverse_and_replace_materials w lb f child acc)
            (visit_entity w lb e st) := rfl
    rw [hshow] at hm
    rcases foldl_mem_or (fun m' => m'.extension.settings = lb.settings) _ _
        (fun st' c _ m' hm' => ih c st' m' hm') _ m hm with h | h
    · exact visit_entity_new_materials w lb e st m h
    · exact Or.inr h

/-- `C6`: when a single node carries the Effect Marker, every composed
material created by the pass — at any depth of the subtree — has its
non-time fields equal to that marker's Effect Parameters. -/
theorem claim_C6_parameter_propagation (fuel : ℕ) (w : World) (r : ℕ)
    (lb : LineBoil) (hroots : marked_roots w = [(r, lb)]) :
    ∀ m ∈ (apply_line_boil_to_marked_entities fuel w).line_boil_materials,
      m ∈ w.line_boil_materials ∨
        (m.extension.settings.intensity = lb.settings.intensity ∧
         m.extension.settings.frame_rate = lb.settings.frame_rate ∧
         m.extension.settings.noise_frequency = lb.settings.noise_frequency ∧
         m.extension.settings.seed = lb.settings.seed) := by
  intro m hm
  have hmats : (apply_line_boil_to_marked_entities fuel w).line_boil_materials
      = (pass_result fuel w).line_boil_materials := rfl
  rw [hmats] at hm
  unfold pass_result at hm
  rw [hroots, List.foldl_cons, List.foldl_nil] at hm
  rcases traverse_new_materials w lb fuel r _ m hm with h | h
  · exact Or.inl h
  · exact Or.inr ⟨by rw [h], by rw [h], by rw [h], by rw [h]⟩

/-- The composed-material reference of a node is mutated only by a replace
command, and a replace also tags the node; the tag, once set, survives the
rest of the replay.  Hence a node whose composed-material reference changed
across a replay is tagged afterwards. -/
theorem apply_commands_boilMat_changed (cmds : List Cmd) :
    ∀ (nodes : List Node) (e : ℕ) (n n' : Node),
      nodes[e]? = some n → (apply_commands nodes cmds)[e]? = some n' →
      n'.boilMat ≠ n.boilMat → n'.applied = true := by
  induction cmds with
  | nil =>
    intro nodes e n n' hn hn' hne
    have hn2 : nodes[e]? = some n' := hn'
    rw [hn] at hn2
    cases hn2
    exact absurd rfl hne
  | cons c rest ih =>
    intro nodes e n n' hn hn' hne
    have step : apply_commands nodes (c :: rest)
        = apply_commands (apply_cmd nodes c) rest := rfl
    rw [step] at hn'
    rcases apply_cmd_cases nodes c e with ⟨heq, _⟩ | ⟨n0, k, _, hn0, hset⟩ |
        ⟨n0, _, hn0, hset⟩
    · exact ih _ _ n n' (heq.trans hn) hn' hne
    · rcases apply_commands_applied_mono rest _ e _ hset rfl with
        ⟨n'', hn'', ha''⟩
      rw [hn'] at hn''
      cases hn''
      exact ha''
    · rw [hn] at hn0
      cases hn0
      exact ih _ _ _ n' hset hn' hne

/-- `C8`: the Processed Tag is never removed by any operation of the tick;
a node that is newly tagged during a tick also points at a composed
material; and a node on which the tick installs (or re-installs) a composed
material — its composed-material reference after the tick differs from the
one before — carries the tag afterwards: tag and installation come
together. -/
theorem claim_C8_processed_tag (fuel : ℕ) (t : ℚ) (w : World) :
    (∀ (e : ℕ) (n : Node), w.nodes[e]? = some n → n.applied = true →
      ∃ n', (tick fuel t w).nodes[e]? = some n' ∧ n'.applied = true) ∧
    (∀ (e : ℕ) (n' : Node), (tick fuel t w).nodes[e]? = some n' →
      n'.applied = true →
      (∃ n, w.nodes[e]? = some n ∧ n.applied = true) ∨
        n'.boilMat.isSome = true) ∧
    (∀ (e : ℕ) (n n' : Node), w.nodes[e]? = some n →
      (tick fuel t w).nodes[e]? = some n' →
      n'.boilMat ≠ n.boilMat → n'.applied = true) := by
  have hnodes : (tick fuel t w).nodes
      = apply_commands
          (apply_commands w.nodes (pass_result fuel w).commands)
          (cleanup_query (apply_line_boil_to_marked_entities fuel w)) := rfl
  refine ⟨?_, ?_, ?_⟩
  · intro e n hn ha
    rcases apply_commands_applied_mono (pass_result fuel w).commands
      w.nodes e n hn ha with ⟨n1, hn1, ha1⟩
    rcases apply_commands_applied_mono
      (cleanup_query (apply_line_boil_to_marked_entities fuel w))
      _ e n1 hn1 ha1 with ⟨n', hn', ha'⟩
    exact ⟨n', by rw [hnodes]; exact hn', ha'⟩
  · intro e n' hn' ha'
    rw [hnodes] at hn'
    rcases apply_commands_applied_source _ _ e n' hn' ha' with
      ⟨n1, hn1, ha1⟩ | hsome
    · rcases apply_commands_applied_source _ _ e n1 hn1 ha1 with
        ⟨n0, hn0, ha0⟩ | hsome1
      · exact Or.inl ⟨n0, hn0, ha0⟩
      · -- n1 has a composed-material reference; it persists through cleanup
        rcases apply_commands_applied_boilMat
          (cleanup_query (apply_line_boil_to_marked_entities fuel w))
          _ e n1 hn1 ha1 hsome1 with ⟨n'', hn'', _, hb''⟩
        rw [hn'] at hn''
        cases hn''
        exact Or.inr hb''
    · exact Or.inr hsome
  · intro e n n' hn hn' hne
    rw [hnodes] at hn'
    have hlt : e < w.nodes.length := by
      rcases List.getElem?_eq_some.mp hn with ⟨h, _⟩
      exact h
    have hlt1 : e < (apply_commands w.nodes (pass_result fuel w).commands).length := by
      rw [apply_commands_length]
      exact hlt
    have hn1 : (apply_commands w.nodes (pass_result fuel w).commands)[e]?
        = some (apply_commands w.nodes (pass_result fuel w).commands)[e] :=
      List.getElem?_eq_getElem hlt1
    by_cases hb :
        (apply_commands w.nodes (pass_result fuel w).commands)[e].boilMat
          = n.boilMat
    · apply apply_commands_boilMat_changed
        (cleanup_query (apply_line_boil_to_marked_entities fuel w))
        _ e _ n' hn1 hn'
      rw [hb]
      exact hne
    · have ha1 := apply_commands_boilMat_changed
        (pass_result fuel w).commands w.nodes e n _ hn hn1 hb
      rcases apply_commands_applied_mono
        (cleanup_query (apply_line_boil_to_marked_entities fuel w))
        _ e _ hn1 ha1 with ⟨n'', hn'', ha''⟩
      rw [hn'] at hn''
      cases hn''
      exact ha''

/-- `C10`: the marked root node itself is processed by the traversal: when
the one marked node exposes a resolvable base-surface-material reference
and is untagged, the pass tags it, strips the base reference, and points it
at a composed material built from its own resolved base snapshot and its
own marker's parameters. -/
theorem claim_C10_marked_root_processed (fuel : ℕ) (w : World) (r : ℕ)
    (lb : LineBoil) (n : Node) (hdl : ℕ) (m : StandardMaterial)
    (hroots : marked_roots w = [(r, lb)])
    (hn : w.nodes[r]? = some n) (happ : n.applied = false)
    (hstd : n.stdMat = some hdl)
    (hres : standard_materials_get w.standard_materials hdl = some m)
    (hfuel : 0 < fuel) :
    ∃ k n', (apply_line_boil_to_marked_entities fuel w).nodes[r]? = some n' ∧
      n'.applied = true ∧ n'.stdMat = none ∧ n'.boilMat = some k ∧
      (apply_line_boil_to_marked_entities fuel w).line_boil_materials[k]?
        = some { base := m, extension := { settings := lb.settings } } := by
  have hq : mesh_query_get w r = some hdl := by
    rw [mesh_query_get_eq_some w r n hn happ, hstd]
  have hroot : (r, lb) ∈ marked_roots w := by
    rw [hroots]
    exact List.mem_singleton.mpr rfl
  have hvis : r ∈ visited_entities w fuel r := by
    cases fuel with
    | zero => cases hfuel
    | succ f => exact mem_visited_self w f r
  have hnb : ¬ visit_blocked w r := by
    intro hb
    rw [hb hdl hq] at hres
    cases hres
  rcases pass_command_exists fuel w r lb hroot r hvis hnb with ⟨k0, hk0⟩
  have hlt : r < w.nodes.length := by
    rcases List.getElem?_eq_some.mp hn with ⟨h, _⟩
    exact h
  have htgt : ∀ c ∈ (pass_result fuel w).commands, Cmd.target c = r →
      ∃ k, c = Cmd.replaceMaterial r k ∧
        (pass_result fuel w).line_boil_materials[k]?
          = some { base := m, extension := { settings := lb.settings } } := by
    intro c hc hct
    rcases pass_result_all_replace fuel w c hc with ⟨x', k', rfl⟩
    have hx' : x' = r := hct
    rcases pass_result_pass_inv fuel w x' k' hc with
      ⟨hdl', m', lb', hS', hq', hr', hmat⟩
    rw [hx', hq] at hq'
    cases hq'
    rw [hres] at hr'
    cases hr'
    rcases hS' with ⟨r', hr'mem⟩
    rw [hroots] at hr'mem
    have hpair : (r', lb') = (r, lb) := List.mem_singleton.mp hr'mem
    have hlb : lb' = lb := congrArg Prod.snd hpair
    rw [hlb] at hmat
    exact ⟨k', by rw [hx'], hmat⟩
  rcases apply_commands_establishes_good _ (pass_result fuel w).commands
    w.nodes r htgt ⟨k0, hk0⟩ hlt with ⟨n', hn', ha', hs', k, hb', hP⟩
  exact ⟨k, n', hn', ha', hs', hb', hP⟩

/-! ## Concrete witnesses.

Node anonymous constructors list the fields in declaration order:
`⟨lineBoil, applied, stdMat, boilMat, children⟩`. -/

/-- Witness for `C1` on `exampleWorld` at visited node `1`. -/
theorem claim_C1_witness :
    (visit_entity exampleWorld LineBoil.aggressive 1
        { line_boil_materials := [], commands := [] }).line_boil_materials
      = [⟨77, ⟨LineBoil.aggressive.settings⟩⟩] ∧
    (visit_entity exampleWorld LineBoil.aggressive 1
        { line_boil_materials := [], commands := [] }).commands
      = [Cmd.replaceMaterial 1 0] ∧
    (apply_cmd exampleWorld.nodes (Cmd.replaceMaterial 1 0))[1]?
      = some ⟨none, true, none, some 0, []⟩ := by
  have h := claim_C1_visit_converts exampleWorld LineBoil.aggressive 1
    { line_boil_materials := [], commands := [] }
    ⟨none, false, some 5, none, []⟩ 5 77 rfl rfl rfl rfl
  exact ⟨h.1, h.2.1, h.2.2 exampleWorld.nodes rfl⟩

/-- Witness for `C3` on `cleanupExample`. -/
theorem claim_C3_witness :
    (cleanup_old_materials cleanupExample).nodes[0]?
      = some ⟨none, true, none, some 0, []⟩ ∧
    ¬((⟨none, true, none, some 0, []⟩ : Node).applied = true ∧
      (⟨none, true, none, some 0, []⟩ : Node).stdMat.isSome = true) ∧
    cleanup_old_materials (cleanup_old_materials cleanupExample)
      = cleanup_old_materials cleanupExample :=
  ⟨(claim_C3_cleanup cleanupExample).1 0 ⟨none, true, some 5, some 0, []⟩ rfl,
   (claim_C3_cleanup cleanupExample).2.1 0 ⟨none, true, none, some 0, []⟩ rfl,
   (claim_C3_cleanup cleanupExample).2.2⟩

/-- Witness for `C4`: node `2` of `exampleWorld` is untouched through a tick
while handle `9` is unloaded, and converted by the pass of the next tick
once `exampleWorld2` has it loaded. -/
theorem claim_C4_witness :
    (tick 10 1 exampleWorld).nodes[2]?
      = some ⟨none, false, some 9, none, [3]⟩ ∧
    (∃ n', (apply_line_boil_to_marked_entities 10 exampleWorld2).nodes[2]?
        = some n' ∧
      n'.applied = true ∧ n'.stdMat = none ∧ ∃ k, n'.boilMat = some k) :=
  ⟨claim_C4_deferred_resolution.1 10 1 exampleWorld 2
      ⟨none, false, some 9, none, [3]⟩ 9 rfl rfl rfl rfl,
   claim_C4_deferred_resolution.2 10 exampleWorld2 0 LineBoil.aggressive 2
      ⟨none, false, some 9, none, [3]⟩ 9 88
      (by show (0, LineBoil.aggressive) ∈ [(0, LineBoil.aggressive)]
          exact List.mem_singleton.mpr rfl)
      (by decide) rfl rfl rfl rfl⟩

/-- Witness for `C5` on `cleanupExample` at registry index `0`. -/
theorem claim_C5_witness :
    (update_line_boil_time 2 cleanupExample).nodes = cleanupExample.nodes ∧
    ∃ m', (update_line_boil_time 2 cleanupExample).line_boil_materials[0]?
        = some m' ∧
      m'.extension.settings.time = 2 ∧
      m'.base = 77 ∧
      m'.extension.settings.intensity = LineBoilSettings.default.intensity ∧
      m'.extension.settings.frame_rate = LineBoilSettings.default.frame_rate ∧
      m'.extension.settings.noise_frequency
        = LineBoilSettings.default.noise_frequency ∧
      m'.extension.settings.seed = LineBoilSettings.default.seed :=
  ⟨(claim_C5_updater 2 cleanupExample).2.1,
   (claim_C5_updater 2 cleanupExample).2.2.2 0
     ⟨77, ⟨LineBoilSettings.default⟩⟩ rfl⟩

/-- Witness for `C6`: the material created for descendant `1` of the single
marked root of `exampleWorld` carries the root marker's parameters. -/
theorem claim_C6_witness :
    (⟨77, ⟨LineBoil.aggressive.settings⟩⟩ : ExtendedMaterial)
        ∈ exampleWorld.line_boil_materials ∨
      ((⟨77, ⟨LineBoil.aggressive.settings⟩⟩ :
          ExtendedMaterial).extension.settings.intensity
          = LineBoil.aggressive.settings.intensity ∧
       (⟨77, ⟨LineBoil.aggressive.settings⟩⟩ :
          ExtendedMaterial).extension.settings.frame_rate
          = LineBoil.aggressive.settings.frame_rate ∧
       (⟨77, ⟨LineBoil.aggressive.settings⟩⟩ :
          ExtendedMaterial).extension.settings.noise_frequency
          = LineBoil.aggressive.settings.noise_frequency ∧
       (⟨77, ⟨LineBoil.aggressive.settings⟩⟩ :
          ExtendedMaterial).extension.settings.seed
          = LineBoil.aggressive.settings.seed) :=
  claim_C6_parameter_propagation 10 exampleWorld 0 LineBoil.aggressive rfl _
    (by show (⟨77, ⟨LineBoil.aggressive.settings⟩⟩ : ExtendedMaterial)
          ∈ [⟨77, ⟨LineBoil.aggressive.settings⟩⟩,
             ⟨77, ⟨LineBoil.aggressive.settings⟩⟩]
        exact List.mem_cons_self _ _)

/-- Witness for `C8`: tag persistence and tag-implies-installed on
`cleanupExample` node `0`, and installed-implies-tag on `rootExample`'s
root, whose composed-material reference goes from `none` to `some 0` within
the tick. -/
theorem claim_C8_witness :
    (∃ n', (tick 3 1 cleanupExample).nodes[0]? = some n' ∧
      n'.applied = true) ∧
    ((∃ n, cleanupExample.nodes[0]? = some n ∧ n.applied = true) ∨
      ((⟨none, true, none, some 0, []⟩ : Node).boilMat.isSome = true)) ∧
    ((⟨some LineBoil.subtle, true, none, some 0, []⟩ : Node).applied = true) :=
  ⟨(claim_C8_processed_tag 3 1 cleanupExample).1 0
      ⟨none, true, some 5, some 0, []⟩ rfl rfl,
   (claim_C8_processed_tag 3 1 cleanupExample).2.1 0
      ⟨none, true, none, some 0, []⟩ rfl rfl,
   (claim_C8_processed_tag 1 1 rootExample).2.2 0
      ⟨some LineBoil.subtle, false, some 4, none, []⟩
      ⟨some LineBoil.subtle, true, none, some 0, []⟩
      rfl rfl (by decide)⟩

/-- Witness for `C10` on `rootExample`: the marked root itself is converted
with its own marker's parameters. -/
theorem claim_C10_witness :
    ∃ k n',
      (apply_line_boil_to_marked_entities 1 rootExample).nodes[0]? = some n' ∧
      n'.applied = true ∧ n'.stdMat = none ∧ n'.boilMat = some k ∧
      (apply_line_boil_to_marked_entities 1 rootExample).line_boil_materials[k]?
        = some { base := 11, extension := { settings := LineBoil.subtle.settings } } :=
  claim_C10_marked_root_processed 1 rootExample 0 LineBoil.subtle
    ⟨some LineBoil.subtle, false, some 4, none, []⟩ 4 11
    rfl rfl rfl rfl rfl (by decide)
